import Mathlib

/-!
Shallow embedding of the image fetcher `src/ubuntu_image_fetcher.py`.

The fetcher's effectful operations are modelled by explicit state passing:
the output directory is an association list from path to byte content, the
manifest file is an optional JSON value, and network responses are data.
Byte strings are lists of naturals. The SHA-256 digest is an abstract
parameter `sha256 : Bytes → String`; the incremental `h.update` loop of the
source is equivalent to applying the digest to the concatenation of the
chunks that were written.
-/

abbrev Bytes := List Nat

/-- JSON values, as produced by `json.load` / consumed by `json.dump`. -/
inductive JValue where
  | jnull
  | jbool (b : Bool)
  | jnum (n : Int)
  | jstr (s : String)
  | jarr (elems : List JValue)
  | jobj (fields : List (String × JValue))

/-- `FETCH_DIR = "Fetched_Images"`. -/
def FETCH_DIR : String := "Fetched_Images"

/-- `MANIFEST = os.path.join(FETCH_DIR, "_manifest.json")`. -/
def MANIFEST : String := "Fetched_Images/_manifest.json"

/-- `MAX_BYTES = 15 * 1024 * 1024`, the 15 MB safety cap. -/
def MAX_BYTES : Nat := 15 * 1024 * 1024

/-- The in-memory manifest dictionary `{"hashes": {...}, "files": [...]}`.
`hashes` is an insertion-ordered association list from hex digest to stored
filename (a Python dict); `files` is the append-only list of stored names. -/
structure Manifest where
  hashes : List (String × String)
  files : List String
deriving DecidableEq

/-- The empty manifest record `{"hashes": {}, "files": []}` as a structure. -/
def emptyManifest : Manifest := ⟨[], []⟩

/-- The default JSON value `{"hashes": {}, "files": []}` returned by
`load_manifest` when the file is absent or unreadable. -/
def defaultManifestJson : JValue := .jobj [("hashes", .jobj []), ("files", .jarr [])]

/-- `load_manifest`. The stored file is `none` when `os.path.exists` is
false, `some none` when opening or `json.load` raises, and `some (some j)`
when the content parses to the JSON value `j`; the `try/except` of the
source returns the default record in the two failure cases and the parsed
value unchanged otherwise. -/
def load_manifest : Option (Option JValue) → JValue
  | some (some j) => j
  | some none => defaultManifestJson
  | none => defaultManifestJson

/-- The JSON value `json.dump` serialises for an in-memory manifest. -/
def encodeManifest (m : Manifest) : JValue :=
  .jobj [("hashes", .jobj (m.hashes.map fun p => (p.1, .jstr p.2))),
         ("files", .jarr (m.files.map .jstr))]

/-- Reads a JSON array of strings back into a list of strings. -/
def decodeStrings : List JValue → Option (List String)
  | [] => some []
  | .jstr s :: rest => (decodeStrings rest).map (s :: ·)
  | _ => none

/-- Reads a JSON object whose values are all strings back into an
association list. -/
def decodeStrPairs : List (String × JValue) → Option (List (String × String))
  | [] => some []
  | (k, .jstr v) :: rest => (decodeStrPairs rest).map ((k, v) :: ·)
  | _ => none

/-- The structured view of a manifest JSON value, modelling the dynamic
dictionary accesses `manifest["hashes"]` / `manifest["files"]` of the
source: it succeeds exactly on objects carrying a `hashes` object of
strings and a `files` array of strings. -/
def decodeManifest : JValue → Option Manifest
  | .jobj fields =>
    match fields.lookup "hashes", fields.lookup "files" with
    | some (.jobj hs), some (.jarr fl) =>
      match decodeStrPairs hs, decodeStrings fl with
      | some hp, some names => some ⟨hp, names⟩
      | _, _ => none
    | _, _ => none
  | _ => none

/-- Program state: the files of the output directory (path to byte content)
and the content of the manifest file at `MANIFEST`, if it exists. -/
structure St where
  dirFiles : List (String × Bytes)
  manifestFile : Option JValue

/-- `save_manifest`: `json.dump` over a fresh `open(MANIFEST, "w")`; on the
normal exit path the file holds the complete serialisation of `m`. -/
def save_manifest (m : Manifest) (st : St) : St :=
  { st with manifestFile := some (encodeManifest m) }

/-- Python `str.strip(chars)`: removes leading and trailing characters
drawn from `cs`. -/
def stripChars (cs : List Char) (s : String) : String :=
  ⟨((s.data.dropWhile (· ∈ cs)).reverse.dropWhile (· ∈ cs)).reverse⟩

/-- Python `str.strip()`: removes leading and trailing whitespace. -/
def pyStrip (s : String) : String :=
  ⟨((s.data.dropWhile (·.isWhitespace)).reverse.dropWhile (·.isWhitespace)).reverse⟩

/-- The suffix after the first occurrence of `pat`, or `none` when `pat`
does not occur: `s.split(pat, 1)[-1]` guarded by `pat in s`. -/
def afterSubstr (pat : List Char) : List Char → Option (List Char)
  | [] => if pat.isEmpty then some [] else none
  | c :: rest =>
    if pat.isPrefixOf (c :: rest) then some ((c :: rest).drop pat.length)
    else afterSubstr pat rest

/-- `os.path.basename`: the part of the path after the last slash. -/
def basename (p : String) : String :=
  ⟨(p.data.reverse.takeWhile (· ≠ '/')).reverse⟩

/-- Value of a hexadecimal digit character, if it is one. -/
def hexDigitVal : Char → Option Nat := fun c =>
  if '0' ≤ c ∧ c ≤ '9' then some (c.toNat - '0'.toNat)
  else if 'a' ≤ c ∧ c ≤ 'f' then some (c.toNat - 'a'.toNat + 10)
  else if 'A' ≤ c ∧ c ≤ 'F' then some (c.toNat - 'A'.toNat + 10)
  else none

/-- `urllib.parse.unquote`, modelled on single bytes: each `%hh` escape is
replaced by the character with that code, anything else is kept. -/
def unquoteChars : List Char → List Char
  | '%' :: h :: l :: rest =>
    match hexDigitVal h, hexDigitVal l with
    | some a, some b => Char.ofNat (16 * a + b) :: unquoteChars rest
    | _, _ => '%' :: unquoteChars (h :: l :: rest)
  | c :: rest => c :: unquoteChars rest
  | [] => []

/-- Path extraction of `urlparse(url).path`, modelled for the common URL
shapes: the fragment (after the first hash mark) and the query (after the
first question mark) are removed, and for URLs with a scheme separator the
scheme and network location (up to the next slash) are removed. -/
def urlPath (url : String) : String :=
  let s := url.data.takeWhile (· ≠ '#')
  let s := s.takeWhile (· ≠ '?')
  match afterSubstr "://".data s with
  | some tail => ⟨tail.dropWhile (· ≠ '/')⟩
  | none => ⟨s⟩

/-- The character class kept by the sanitisation step of
`safe_filename_from_url`: `c.isalnum() or c in ("-", "_", ".", " ")`. -/
def allowedChar (c : Char) : Bool :=
  c.isAlphanum || c = '-' || c = '_' || c = '.' || c = ' '

/-- `safe_filename_from_url`. `tMillis` stands for `int(time.time()*1000)`. -/
def safe_filename_from_url (url : String) (tMillis : Nat) : String :=
  let name := basename (urlPath url)
  let name := pyStrip (String.mk (unquoteChars name.data))
  let name :=
    if name = "" || !(name.data.contains '.') then
      "downloaded_" ++ toString tMillis ++ ".jpg"
    else name
  let name := String.mk (name.data.filter allowedChar)
  if name = "" then "image_" ++ toString tMillis ++ ".jpg" else name

/-- `filename_from_headers`: simple parse of `filename=` out of the
`Content-Disposition` header value (empty string when the header is
absent). -/
def filename_from_headers (contentDisposition : String) : Option String :=
  match afterSubstr "filename=".data contentDisposition.data with
  | none => none
  | some tail =>
    let part := pyStrip (String.mk tail)
    let part := stripChars [';'] part
    let part := stripChars ['"'] part
    let part := stripChars ['\''] part
    if part = "" then none else some part

/-- Index of the last `'.'` in a character list, if any. -/
def lastDotIdx : List Char → Option Nat
  | [] => none
  | c :: rest =>
    match lastDotIdx rest with
    | some i => some (i + 1)
    | none => if c = '.' then some 0 else none

/-- `os.path.splitext` restricted to the final path component: the split is
at the last dot, except that the leading dots of the component never start
an extension. -/
def splitextBase (name : List Char) : List Char × List Char :=
  let leading := name.takeWhile (· = '.')
  let rest := name.drop leading.length
  match lastDotIdx rest with
  | none => (name, [])
  | some i => (leading ++ rest.take i, rest.drop i)

/-- `os.path.splitext`. -/
def splitext (p : String) : String × String :=
  let base := (p.data.reverse.takeWhile (· ≠ '/')).reverse
  let dir := p.data.take (p.data.length - base.length)
  let be := splitextBase base
  (⟨dir ++ be.1⟩, ⟨be.2⟩)

/-- The candidate `f"{base} ({i}){ext}"` tried by `ensure_unique_path`. -/
def numberedPath (base ext : String) (i : Nat) : String :=
  base ++ " (" ++ toString i ++ ")" ++ ext

/-- The `while os.path.exists(path)` loop of `ensure_unique_path`, with
explicit fuel; `existing` is the set of paths present on disk. -/
def uniqueLoop (existing : List String) (base ext : String) : Nat → Nat → String → String
  | 0, _, path => path
  | fuel + 1, i, path =>
    if path ∈ existing then
      uniqueLoop existing base ext fuel (i + 1) (numberedPath base ext i)
    else path

/-- `ensure_unique_path`. The fuel `existing.length + 1` is enough for the
loop to reach a free candidate, so the definition agrees with the unbounded
`while` loop of the source (see the uniqueness theorem). -/
def ensure_unique_path (existing : List String) (path : String) : String :=
  let be := splitext path
  uniqueLoop existing be.1 be.2 (existing.length + 1) 1 path

/-- An HTTP response: status flag, the headers the fetcher reads, and the
body as the chunk sequence yielded by `iter_content`. -/
structure HttpResponse where
  ok : Bool
  contentType : String
  contentDisposition : String
  contentLength : Option Nat
  chunks : List Bytes
deriving DecidableEq

/-- `is_image_response`: the `Content-Type` header starts with `image/`. -/
def is_image_response (r : HttpResponse) : Bool :=
  "image/".data.isPrefixOf r.contentType.data

/-- Network behaviour for one URL: the outcome of the HEAD probe and of the
streaming GET; `none` models a raised `requests.RequestException`. -/
structure Net where
  headResp : Option HttpResponse
  getResp : Option HttpResponse
deriving DecidableEq

/-- Terminal outcome of one fetch attempt, mirroring the printed lines. -/
inductive Outcome where
  | headSkipNotImage
  | headSkipTooLarge (declared : Nat)
  | connectionError
  | notImage (ctype : String)
  | abortedTooLarge
  | duplicateSkipped (existing : String)
  | fetched (path : String)
deriving DecidableEq

/-- The optional HEAD stage of `respectful_fetch`: `some o` when the
attempt is skipped with outcome `o` before any GET, `none` when the
pipeline proceeds to the full GET (including when HEAD raised or returned
a non-ok status). -/
def head_check : Option HttpResponse → Option Outcome
  | none => none
  | some h =>
    if h.ok then
      if ¬ ("image/".data.isPrefixOf h.contentType.data) then some .headSkipNotImage
      else
        match h.contentLength with
        | some n => if n > MAX_BYTES then some (.headSkipTooLarge n) else none
        | none => none
    else none

/-- The chunk loop of `respectful_fetch`: empty chunks are skipped, the
cumulative count is checked against the cap after each chunk and before
that chunk is hashed or written, and the accumulated bytes are returned on
completion; `none` is the abort path (the partial file is deleted, so the
caller's directory is unchanged). -/
def streamBody (cap : Nat) : List Bytes → Nat → Bytes → Option Bytes
  | [], _, acc => some acc
  | chunk :: rest, total, acc =>
    if chunk.isEmpty then streamBody cap rest total acc
    else
      let t := total + chunk.length
      if t > cap then none
      else streamBody cap rest t (acc ++ chunk)

/-- The paths that `os.path.exists` sees: the files of the output directory
plus the manifest file when present. -/
def existingPaths (st : St) : List String :=
  st.dirFiles.map Prod.fst ++ (if st.manifestFile.isSome then [MANIFEST] else [])

/-- Result of one `respectful_fetch` call: the reported outcome, the
manifest and disk state after the attempt, and whether the streaming GET
was issued. -/
structure FetchResult where
  outcome : Outcome
  manifest : Manifest
  st : St
  didGet : Bool

/-- `respectful_fetch`. States are final states of each control path: on
the size-cap abort and on the duplicate skip the just-written file is
removed again (`os.remove(out_path)`), so the directory is returned
unchanged there. -/
def respectful_fetch (sha256 : Bytes → String) (url : String) (tMillis : Nat)
    (net : Net) (manifest : Manifest) (st : St) : FetchResult :=
  match head_check net.headResp with
  | some o => ⟨o, manifest, st, false⟩
  | none =>
    match net.getResp with
    | none => ⟨.connectionError, manifest, st, true⟩
    | some r =>
      if ¬ r.ok then ⟨.connectionError, manifest, st, true⟩
      else if ¬ is_image_response r then ⟨.notImage r.contentType, manifest, st, true⟩
      else
        let fname := (filename_from_headers r.contentDisposition).getD
          (safe_filename_from_url url tMillis)
        let out_path := ensure_unique_path (existingPaths st) (FETCH_DIR ++ "/" ++ fname)
        match streamBody MAX_BYTES r.chunks 0 [] with
        | none => ⟨.abortedTooLarge, manifest, st, true⟩
        | some body =>
          let file_hash := sha256 body
          match manifest.hashes.lookup file_hash with
          | some existing => ⟨.duplicateSkipped existing, manifest, st, true⟩
          | none =>
            let bname := basename out_path
            let m2 : Manifest :=
              ⟨manifest.hashes ++ [(file_hash, bname)], manifest.files ++ [bname]⟩
            let st2 : St := ⟨st.dirFiles ++ [(out_path, body)], some (encodeManifest m2)⟩
            ⟨.fetched out_path, m2, st2, true⟩

/-- Python `str.split()` with no separator: the maximal runs of
non-whitespace characters (`cur` is the current run, reversed). -/
def splitWsAux : List Char → List Char → List (List Char)
  | [], cur => if cur = [] then [] else [cur.reverse]
  | c :: rest, cur =>
    if c.isWhitespace then
      if cur = [] then splitWsAux rest [] else cur.reverse :: splitWsAux rest []
    else splitWsAux rest (c :: cur)

/-- Python `str.split(",")`: split at every comma, keeping empty pieces. -/
def splitCommaAux : List Char → List Char → List (List Char)
  | [], cur => [cur.reverse]
  | c :: rest, cur =>
    if c = ',' then cur.reverse :: splitCommaAux rest []
    else splitCommaAux rest (c :: cur)

/-- The URL tokenisation of `main`: split on whitespace, split each part on
commas, strip each token, keep the non-empty ones. -/
def parse_urls (raw : String) : List String :=
  (((splitWsAux raw.data []).flatMap (fun part => splitCommaAux part [])).map
    (fun t => pyStrip ⟨t⟩)).filter (· ≠ "")

/-- The `for url in urls` loop of `main`: one `respectful_fetch` per URL
against the shared manifest, collecting one outcome line per URL. `netAt`
and `tAt` give the network behaviour and clock reading of the attempt with
the given index. -/
def fetchList (sha256 : Bytes → String) (netAt : Nat → Net) (tAt : Nat → Nat) :
    List String → Nat → Manifest → St → List Outcome × Manifest × St
  | [], _, m, st => ([], m, st)
  | url :: rest, idx, m, st =>
    let r := respectful_fetch sha256 url (tAt idx) (netAt idx) m st
    let tail := fetchList sha256 netAt tAt rest (idx + 1) r.manifest r.st
    (r.outcome :: tail.1, tail.2)

/-- Result of a whole run of `main`: process exit status, the per-URL
outcomes in order, and the final manifest and disk state. -/
structure RunResult where
  exitCode : Nat
  outcomes : List Outcome
  manifest : Manifest
  st : St

/-- `main`: strip the input line, exit 0 on empty input, otherwise tokenise
the URLs, load the manifest once and fetch each URL in order; the process
always falls off the loop and exits 0. The loaded JSON value is bridged to
the structured record by `decodeManifest` (a non-conforming value stands
for a run whose per-URL dictionary accesses fail and are caught). -/
def main_run (sha256 : Bytes → String) (rawInput : String) (netAt : Nat → Net)
    (tAt : Nat → Nat) (stored : Option (Option JValue)) (st0 : St) : RunResult :=
  let raw := pyStrip rawInput
  if raw = "" then ⟨0, [], emptyManifest, st0⟩
  else
    let urls := parse_urls raw
    let manifest := (decodeManifest (load_manifest stored)).getD emptyManifest
    let r := fetchList sha256 netAt tAt urls 0 manifest st0
    ⟨0, r.1, r.2.1, r.2.2⟩

/-- The manifest invariant of the design: every filename recorded in
`hashes` also appears in `files`. -/
def manifest_inv (m : Manifest) : Prop := ∀ p ∈ m.hashes, p.2 ∈ m.files

/-- Total number of body bytes across all chunks. -/
def totalLen (chunks : List Bytes) : Nat := (chunks.map List.length).sum

/-- The output path resolved by `respectful_fetch` for a response `r` to
`url` against disk state `st`: header filename preferred over the URL-derived
one, made unique against the files present on disk. -/
def resolvedPath (url : String) (tMillis : Nat) (r : HttpResponse) (st : St) : String :=
  ensure_unique_path (existingPaths st)
    (FETCH_DIR ++ "/" ++ ((filename_from_headers r.contentDisposition).getD
      (safe_filename_from_url url tMillis)))

/-- The manifest after recording a stored file. -/
def recordedManifest (m : Manifest) (fileHash bname : String) : Manifest :=
  ⟨m.hashes ++ [(fileHash, bname)], m.files ++ [bname]⟩


/-- A parseable stored manifest value that violates the design invariant:
a hash entry pointing at a filename absent from `files`. -/
def badManifestJson : JValue :=
  .jobj [("hashes", .jobj [("deadbeef", .jstr "a.jpg")]), ("files", .jarr [])]

lemma toDigitsCore_eq_digits :
    ∀ (f n : Nat) (acc : List Char), 0 < n → n < f →
      Nat.toDigitsCore 10 f n acc =
        ((Nat.digits 10 n).reverse.map Nat.digitChar) ++ acc := by
  intro f
  induction f with
  | zero => intro n acc h1 h2; omega
  | succ f ih =>
    intro n acc hpos hlt
    rw [Nat.toDigitsCore]
    by_cases hdiv : n / 10 = 0
    · have hn10 : n < 10 := by omega
      simp only [hdiv, if_true]
      rw [Nat.digits_def' (by norm_num : (1:Nat) < 10) hpos, hdiv]
      simp [Nat.mod_eq_of_lt hn10]
    · simp only [hdiv, if_false]
      have hq : 0 < n / 10 := Nat.pos_of_ne_zero hdiv
      have hqlt : n / 10 < f := by
        have := Nat.div_lt_self hpos (by norm_num : 1 < 10)
        omega
      rw [ih (n / 10) (Nat.digitChar (n % 10) :: acc) hq hqlt]
      rw [Nat.digits_def' (by norm_num : (1:Nat) < 10) hpos]
      simp

lemma repr_eq_digits (n : Nat) (hpos : 0 < n) :
    Nat.repr n = ⟨(Nat.digits 10 n).reverse.map Nat.digitChar⟩ := by
  show (Nat.toDigits 10 n).asString = _
  rw [Nat.toDigits, toDigitsCore_eq_digits (n+1) n [] hpos (by omega)]
  simp [List.asString]

lemma digitChar_inj_lt : ∀ a < 10, ∀ b < 10, Nat.digitChar a = Nat.digitChar b → a = b := by
  decide

lemma map_digitChar_inj :
    ∀ (l1 l2 : List Nat), (∀ d ∈ l1, d < 10) → (∀ d ∈ l2, d < 10) →
      l1.map Nat.digitChar = l2.map Nat.digitChar → l1 = l2 := by
  intro l1
  induction l1 with
  | nil => intro l2 _ _ h; cases l2 <;> simp_all
  | cons a t ih =>
    intro l2 h1 h2 h
    cases l2 with
    | nil => simp at h
    | cons b t2 =>
      simp only [List.map_cons, List.cons.injEq] at h
      have ha := h1 a (by simp)
      have hb := h2 b (by simp)
      have : a = b := digitChar_inj_lt a ha b hb h.1
      subst this
      rw [ih t2 (fun d hd => h1 d (by simp [hd])) (fun d hd => h2 d (by simp [hd])) h.2]

lemma repr_pos_ne_zero (n : Nat) (hn : 0 < n) : Nat.repr n ≠ "0" := by
  intro h
  rw [repr_eq_digits n hn] at h
  have hd : (Nat.digits 10 n).reverse.map Nat.digitChar = ['0'] := congrArg String.data h
  have : (Nat.digits 10 n).reverse = [0] := by
    apply map_digitChar_inj
    · intro d hd'
      exact Nat.digits_lt_base (by norm_num) (List.mem_reverse.mp hd')
    · intro d hd'; simp at hd'; omega
    · exact hd
  have hdig : Nat.digits 10 n = [0] := by
    have := congrArg List.reverse this; simpa using this
  have hofd := Nat.ofDigits_digits 10 n
  rw [hdig] at hofd
  simp [Nat.ofDigits] at hofd
  omega

lemma toString_nat_injective : ∀ m n : Nat, toString m = toString n → m = n := by
  intro m n h
  have h' : Nat.repr m = Nat.repr n := h
  rcases Nat.eq_zero_or_pos m with hm | hm <;> rcases Nat.eq_zero_or_pos n with hn | hn
  · omega
  · subst hm
    exact absurd h'.symm (repr_pos_ne_zero n hn)
  · subst hn
    exact absurd h' (repr_pos_ne_zero m hm)
  · rw [repr_eq_digits m hm, repr_eq_digits n hn] at h'
    have hd : (Nat.digits 10 m).reverse.map Nat.digitChar
        = (Nat.digits 10 n).reverse.map Nat.digitChar := congrArg String.data h'
    have hrev : (Nat.digits 10 m).reverse = (Nat.digits 10 n).reverse := by
      apply map_digitChar_inj
      · intro d hd'; exact Nat.digits_lt_base (by norm_num) (List.mem_reverse.mp hd')
      · intro d hd'; exact Nat.digits_lt_base (by norm_num) (List.mem_reverse.mp hd')
      · exact hd
    have : Nat.digits 10 m = Nat.digits 10 n := by
      have := congrArg List.reverse hrev; simpa using this
    exact Nat.digits_inj_iff.mp this

lemma numberedPath_inj (base ext : String) :
    ∀ i j : Nat, numberedPath base ext i = numberedPath base ext j → i = j := by
  intro i j h
  have hd := congrArg String.data h
  simp only [numberedPath, String.data_append, List.append_assoc] at hd
  have h1 := List.append_cancel_left hd
  have h2 := List.append_cancel_left h1
  have h3 : (toString i).data = (toString j).data := List.append_cancel_right h2
  exact toString_nat_injective i j (String.ext h3)

lemma exists_free_candidate (existing : List String) (base ext : String) :
    ∃ k, k < existing.length + 1 ∧ numberedPath base ext (1 + k) ∉ existing := by
  by_contra hcon
  push_neg at hcon
  have hsub : ((List.range (existing.length + 1)).map
      (fun k => numberedPath base ext (1 + k))) ⊆ existing := by
    intro x hx
    rcases List.mem_map.mp hx with ⟨k, hk, rfl⟩
    exact hcon k (List.mem_range.mp hk)
  have hnd : ((List.range (existing.length + 1)).map
      (fun k => numberedPath base ext (1 + k))).Nodup := by
    refine List.Nodup.map ?_ (List.nodup_range _)
    intro a b hab
    have := numberedPath_inj base ext (1 + a) (1 + b) hab
    omega
  have hle := (List.subperm_of_subset hnd hsub).length_le
  simp at hle

lemma uniqueLoop_not_mem (existing : List String) (base ext : String) :
    ∀ (fuel i : Nat) (path : String),
      (path ∉ existing ∨ ∃ k, k < fuel ∧ numberedPath base ext (i + k) ∉ existing) →
      uniqueLoop existing base ext fuel i path ∉ existing := by
  intro fuel
  induction fuel with
  | zero =>
    intro i path h
    rcases h with h | ⟨k, hk, _⟩
    · simpa [uniqueLoop] using h
    · omega
  | succ fuel ih =>
    intro i path h
    rw [uniqueLoop]
    by_cases hmem : path ∈ existing
    · simp only [hmem, if_true]
      apply ih
      rcases h with h | ⟨k, hk, hfree⟩
      · exact absurd hmem h
      · rcases Nat.eq_zero_or_pos k with rfl | hkpos
        · left; simpa using hfree
        · right
          refine ⟨k - 1, by omega, ?_⟩
          have : i + 1 + (k - 1) = i + k := by omega
          rw [this]
          exact hfree
    · simp [hmem]

lemma ensure_unique_path_not_mem (existing : List String) (path : String) :
    ensure_unique_path existing path ∉ existing := by
  rw [ensure_unique_path]
  apply uniqueLoop_not_mem
  right
  rcases exists_free_candidate existing (splitext path).1 (splitext path).2 with ⟨k, hk, hfree⟩
  exact ⟨k, hk, hfree⟩

lemma streamBody_complete (cap : Nat) :
    ∀ (chunks : List Bytes) (total : Nat) (acc : Bytes),
      total + totalLen chunks ≤ cap →
      streamBody cap chunks total acc = some (acc ++ chunks.flatten) := by
  intro chunks
  induction chunks with
  | nil => intro total acc h; simp [streamBody]
  | cons c cs ih =>
    intro total acc h
    rw [streamBody]
    by_cases hc : c.isEmpty
    · have hce : c = [] := List.isEmpty_iff.mp hc
      subst hce
      simp only [hc, if_true]
      rw [ih total acc (by simpa [totalLen] using h)]
      simp
    · simp only [hc, if_false]
      have hsum : total + c.length + totalLen cs ≤ cap := by
        simp only [totalLen, List.map_cons, List.sum_cons] at h ⊢
        omega
      have hnot : ¬ (total + c.length > cap) := by omega
      simp only [hnot, if_false]
      rw [ih (total + c.length) (acc ++ c) hsum]
      simp

lemma streamBody_abort (cap : Nat) :
    ∀ (chunks : List Bytes) (total : Nat) (acc : Bytes),
      total ≤ cap → cap < total + totalLen chunks →
      streamBody cap chunks total acc = none := by
  intro chunks
  induction chunks with
  | nil => intro total acc h1 h2; simp [totalLen] at h2; omega
  | cons c cs ih =>
    intro total acc h1 h2
    rw [streamBody]
    by_cases hc : c.isEmpty
    · have hce : c = [] := List.isEmpty_iff.mp hc
      subst hce
      simp only [hc, if_true]
      exact ih total acc h1 (by simpa [totalLen] using h2)
    · simp only [hc, if_false]
      by_cases hover : total + c.length > cap
      · simp [hover]
      · simp only [hover, if_false]
        apply ih (total + c.length) (acc ++ c) (by omega)
        simp only [totalLen, List.map_cons, List.sum_cons] at h2 ⊢
        omega

lemma totalLen_eq_flatten_length (chunks : List Bytes) :
    totalLen chunks = chunks.flatten.length := by
  induction chunks with
  | nil => rfl
  | cons c cs ih =>
    simp only [totalLen, List.map_cons, List.sum_cons, List.flatten_cons,
      List.length_append] at ih ⊢
    omega

lemma respectful_fetch_stores (sha256 : Bytes → String) (url : String) (tMillis : Nat)
    (net : Net) (m : Manifest) (st : St) (r : HttpResponse)
    (hhead : head_check net.headResp = none)
    (hget : net.getResp = some r)
    (hok : r.ok = true)
    (himg : is_image_response r = true)
    (hsize : totalLen r.chunks ≤ MAX_BYTES)
    (hnew : m.hashes.lookup (sha256 r.chunks.flatten) = none) :
    respectful_fetch sha256 url tMillis net m st =
      ⟨.fetched (resolvedPath url tMillis r st),
       recordedManifest m (sha256 r.chunks.flatten) (basename (resolvedPath url tMillis r st)),
       ⟨st.dirFiles ++ [(resolvedPath url tMillis r st, r.chunks.flatten)],
        some (encodeManifest (recordedManifest m (sha256 r.chunks.flatten)
          (basename (resolvedPath url tMillis r st))))⟩,
       true⟩ := by
  rw [respectful_fetch, hhead, hget]
  simp only [hok, himg, not_true, if_false, Bool.not_eq_true]
  rw [streamBody_complete MAX_BYTES r.chunks 0 [] (by omega)]
  simp only [List.nil_append]
  rw [hnew]
  rfl

lemma respectful_fetch_duplicate (sha256 : Bytes → String) (url : String) (tMillis : Nat)
    (net : Net) (m : Manifest) (st : St) (r : HttpResponse) (existing : String)
    (hhead : head_check net.headResp = none)
    (hget : net.getResp = some r)
    (hok : r.ok = true)
    (himg : is_image_response r = true)
    (hsize : totalLen r.chunks ≤ MAX_BYTES)
    (hdup : m.hashes.lookup (sha256 r.chunks.flatten) = some existing) :
    respectful_fetch sha256 url tMillis net m st =
      ⟨.duplicateSkipped existing, m, st, true⟩ := by
  rw [respectful_fetch, hhead, hget]
  simp only [hok, himg, not_true, if_false, Bool.not_eq_true]
  rw [streamBody_complete MAX_BYTES r.chunks 0 [] (by omega)]
  simp only [List.nil_append]
  rw [hdup]

lemma respectful_fetch_too_large (sha256 : Bytes → String) (url : String) (tMillis : Nat)
    (net : Net) (m : Manifest) (st : St) (r : HttpResponse)
    (hhead : head_check net.headResp = none)
    (hget : net.getResp = some r)
    (hok : r.ok = true)
    (himg : is_image_response r = true)
    (hsize : MAX_BYTES < totalLen r.chunks) :
    respectful_fetch sha256 url tMillis net m st =
      ⟨.abortedTooLarge, m, st, true⟩ := by
  rw [respectful_fetch, hhead, hget]
  simp only [hok, himg, not_true, if_false, Bool.not_eq_true]
  rw [streamBody_abort MAX_BYTES r.chunks 0 [] (by omega) (by omega)]


lemma decodeStrings_encode (l : List String) : decodeStrings (l.map .jstr) = some l := by
  induction l with
  | nil => rfl
  | cons a t ih => simp [decodeStrings, ih]

lemma decodeStrPairs_encode (l : List (String × String)) :
    decodeStrPairs (l.map fun p => (p.1, .jstr p.2)) = some l := by
  induction l with
  | nil => rfl
  | cons a t ih => simp [decodeStrPairs, ih]

lemma decodeManifest_encodeManifest (m : Manifest) :
    decodeManifest (encodeManifest m) = some m := by
  simp [decodeManifest, encodeManifest, List.lookup, decodeStrPairs_encode,
    decodeStrings_encode]

/-- C8: `load_manifest` returns the empty default record both when the
manifest file does not exist and when its stored content cannot be parsed
or read (it is a total function, so no error propagates to the caller),
and the default decodes to the empty in-memory record. -/
theorem load_manifest_defaults_on_missing_or_corrupt :
    load_manifest none = defaultManifestJson ∧
    load_manifest (some none) = defaultManifestJson ∧
    decodeManifest defaultManifestJson = some emptyManifest :=
  ⟨rfl, rfl, rfl⟩

/-- C10: `load_manifest` returns any successfully parsed JSON value
unchanged (including arrays and objects missing the `hashes`/`files`
keys), and it produces the default record only when the file is absent,
when reading raises, or when the stored content is itself the default. -/
theorem load_manifest_parsed_unchanged :
    (∀ j : JValue, load_manifest (some (some j)) = j) ∧
    (∀ stored : Option (Option JValue), load_manifest stored = defaultManifestJson →
      stored = none ∨ stored = some none ∨ stored = some (some defaultManifestJson)) := by
  constructor
  · intro j; rfl
  · intro stored h
    match stored with
    | none => exact Or.inl rfl
    | some none => exact Or.inr (Or.inl rfl)
    | some (some j) =>
      refine Or.inr (Or.inr ?_)
      have hj : j = defaultManifestJson := h
      rw [hj]

/-- Witness for C10 at concrete inputs: a bare JSON array is returned
unchanged, and the stored default maps to the default. -/
theorem load_manifest_parsed_unchanged_witness :
    load_manifest (some (some (JValue.jarr []))) = JValue.jarr [] ∧
    ((some (some defaultManifestJson) : Option (Option JValue)) = none ∨
      (some (some defaultManifestJson) : Option (Option JValue)) = some none ∨
      (some (some defaultManifestJson) : Option (Option JValue)) =
        some (some defaultManifestJson)) :=
  ⟨load_manifest_parsed_unchanged.1 (JValue.jarr []),
   load_manifest_parsed_unchanged.2 (some (some defaultManifestJson)) rfl⟩

/-- C3: on the normal exit path `save_manifest` leaves the manifest file
holding the complete serialisation of the saved record — a value that
decodes back to exactly the record saved, so a reader never observes a
half-written structure as the only copy — and it touches no other file. -/
theorem save_manifest_writes_complete_serialisation (m : Manifest) (st : St) :
    (save_manifest m st).manifestFile = some (encodeManifest m) ∧
    decodeManifest (encodeManifest m) = some m ∧
    (save_manifest m st).dirFiles = st.dirFiles :=
  ⟨rfl, decodeManifest_encodeManifest m, rfl⟩

/-- C4 counterexample: a filename taken from a `Content-Disposition`
header is used as the candidate filename without sanitisation, so the
candidate can contain a character outside the allowed class (here `!`). -/
theorem header_filename_not_sanitized :
    (filename_from_headers "attachment; filename=bad!.jpg").getD
        (safe_filename_from_url "http://example.com/a.jpg" 0) = "bad!.jpg" ∧
    ¬ ("bad!.jpg".data.all allowedChar = true) := by
  constructor
  · decide
  · decide

/-- C4 amended: the URL-derived candidate filename is sanitised to contain
only alphanumerics, hyphen, underscore, period and space, and is never
empty; filenames offered via `Content-Disposition` bypass this
sanitisation (see the counterexample), and the `image_<epoch>.jpg`
fallback branch for an empty sanitisation result is present but
unreachable, the sanitised name always retaining a period. -/
theorem safe_filename_from_url_sanitized (url : String) (tMillis : Nat) :
    (safe_filename_from_url url tMillis).data.all allowedChar = true ∧
    safe_filename_from_url url tMillis ≠ "" := by
  rw [safe_filename_from_url]
  set name1 := pyStrip (String.mk (unquoteChars (basename (urlPath url)).data)) with hname1
  set name2 := if name1 = "" || !(name1.data.contains '.') then
      "downloaded_" ++ toString tMillis ++ ".jpg" else name1 with hname2
  have hdot : '.' ∈ name2.data := by
    rw [hname2]
    by_cases hc : (name1 = "" || !(name1.data.contains '.')) = true
    · simp only [hc, if_true]
      simp [String.data_append]
    · simp only [hc, if_false]
      simp only [Bool.or_eq_true, Bool.not_eq_true', not_or, decide_eq_true_eq] at hc
      have hct : name1.data.contains '.' = true := by
        cases hcc : name1.data.contains '.' with
        | false => exact absurd hcc hc.2
        | true => rfl
      exact List.elem_iff.mp hct
  have hmemf : '.' ∈ name2.data.filter allowedChar :=
    List.mem_filter.mpr ⟨hdot, by decide⟩
  have hne : name2.data.filter allowedChar ≠ [] := List.ne_nil_of_mem hmemf
  have hnotEmpty : ¬ (String.mk (name2.data.filter allowedChar) = "") := by
    intro h
    exact hne (congrArg String.data h)
  simp only [hnotEmpty, if_false]
  constructor
  · simp only [List.all_eq_true]
    intro c hc
    exact (List.mem_filter.mp hc).2
  · intro h
    exact hne (congrArg String.data h)

/-- C7 counterexample: the manifest state loaded at process start is
reachable in zero steps, and `load_manifest` hands back any parseable
stored value unchanged, so the loaded manifest can already violate the
invariant: here `hashes` records `a.jpg` while `files` is empty. -/
theorem loaded_manifest_can_violate_inv :
    load_manifest (some (some badManifestJson)) = badManifestJson ∧
    decodeManifest badManifestJson = some ⟨[("deadbeef", "a.jpg")], []⟩ ∧
    ¬ manifest_inv ⟨[("deadbeef", "a.jpg")], []⟩ := by
  refine ⟨rfl, by decide, ?_⟩
  intro h
  have := h ("deadbeef", "a.jpg") (by simp)
  simp at this

lemma manifest_inv_record (m : Manifest) (fileHash bname : String)
    (hm : manifest_inv m) : manifest_inv (recordedManifest m fileHash bname) := by
  intro p hp
  rcases List.mem_append.mp hp with h | h
  · exact List.mem_append.mpr (Or.inl (hm p h))
  · simp at h
    simp [recordedManifest, h]

/-- C7 amended: the empty default manifest satisfies the invariant that
every filename recorded in `hashes` also appears in `files`, and every
fetch attempt preserves it — so every state reachable from the default
manifest, or from any loaded manifest that satisfies the invariant,
satisfies it; a freshly loaded manifest itself need not, since
`load_manifest` returns arbitrary parseable JSON unchanged. -/
theorem manifest_inv_preserved (sha256 : Bytes → String) (url : String)
    (tMillis : Nat) (net : Net) (m : Manifest) (st : St) (hm : manifest_inv m) :
    manifest_inv emptyManifest ∧
    manifest_inv (respectful_fetch sha256 url tMillis net m st).manifest := by
  constructor
  · intro p hp; simp [emptyManifest] at hp
  · cases hhc : head_check net.headResp with
    | some o => simp only [respectful_fetch, hhc]; exact hm
    | none =>
      cases hget : net.getResp with
      | none => simp only [respectful_fetch, hhc, hget]; exact hm
      | some r =>
        cases hok : r.ok with
        | false => simp only [respectful_fetch, hhc, hget, hok]; exact hm
        | true =>
          cases himg : is_image_response r with
          | false =>
            simp only [respectful_fetch, hhc, hget, hok, himg]
            simp only [Bool.not_true, Bool.false_eq_true, not_false_eq_true,
              Bool.not_false, if_true, if_false]
            exact hm
          | true =>
            cases hstream : streamBody MAX_BYTES r.chunks 0 [] with
            | none =>
              simp only [respectful_fetch, hhc, hget, hok, himg, hstream]
              simp only [Bool.not_true, not_true_eq_false, if_false]
              exact hm
            | some body =>
              cases hlk : List.lookup (sha256 body) m.hashes with
              | some existing =>
                simp only [respectful_fetch, hhc, hget, hok, himg, hstream, hlk]
                simp only [Bool.not_true, not_true_eq_false, if_false]
                exact hm
              | none =>
                simp only [respectful_fetch, hhc, hget, hok, himg, hstream, hlk]
                simp only [Bool.not_true, not_true_eq_false, if_false]
                exact manifest_inv_record m (sha256 body) _ hm

/-- Witness for C7's amended theorem: preservation applied to an attempt
starting from the empty manifest, whose invariant holds by computation. -/
theorem manifest_inv_preserved_witness :
    manifest_inv emptyManifest ∧
    manifest_inv (respectful_fetch (fun _ => "h") "u" 0 ⟨none, none⟩ emptyManifest
      ⟨[], none⟩).manifest :=
  manifest_inv_preserved (fun _ => "h") "u" 0 ⟨none, none⟩ emptyManifest ⟨[], none⟩
    (by intro p hp; simp [emptyManifest] at hp)

lemma respectful_fetch_head_skip (sha256 : Bytes → String) (url : String) (tMillis : Nat)
    (net : Net) (m : Manifest) (st : St) (o : Outcome)
    (hhc : head_check net.headResp = some o) :
    respectful_fetch sha256 url tMillis net m st = ⟨o, m, st, false⟩ := by
  simp only [respectful_fetch, hhc]

lemma respectful_fetch_didGet_of_head_pass (sha256 : Bytes → String) (url : String)
    (tMillis : Nat) (net : Net) (m : Manifest) (st : St)
    (hhc : head_check net.headResp = none) :
    (respectful_fetch sha256 url tMillis net m st).didGet = true := by
  cases hget : net.getResp with
  | none => simp only [respectful_fetch, hhc, hget]
  | some r =>
    cases hok : r.ok with
    | false =>
      simp only [respectful_fetch, hhc, hget, hok]
      simp
    | true =>
      cases himg : is_image_response r with
      | false =>
        simp only [respectful_fetch, hhc, hget, hok, himg]
        simp
      | true =>
        cases hstream : streamBody MAX_BYTES r.chunks 0 [] with
        | none =>
          simp only [respectful_fetch, hhc, hget, hok, himg, hstream]
          simp
        | some body =>
          cases hlk : List.lookup (sha256 body) m.hashes with
          | some existing =>
            simp only [respectful_fetch, hhc, hget, hok, himg, hstream, hlk]
            simp
          | none =>
            simp only [respectful_fetch, hhc, hget, hok, himg, hstream, hlk]
            simp

/-- C6: the HEAD probe is advisory — when it raises or returns a non-ok
status the pipeline proceeds to the full GET anyway — and when it
succeeds, the attempt is rejected before any GET, with the disk and
manifest untouched, exactly when the declared content type is not an
image or the declared `Content-Length` exceeds the byte cap. -/
theorem head_probe_advisory (sha256 : Bytes → String) (url : String) (tMillis : Nat)
    (net : Net) (m : Manifest) (st : St) :
    ((net.headResp = none ∨ ∃ h, net.headResp = some h ∧ h.ok = false) →
      (respectful_fetch sha256 url tMillis net m st).didGet = true) ∧
    (∀ h, net.headResp = some h → h.ok = true →
      (((respectful_fetch sha256 url tMillis net m st).didGet = false ∧
        (respectful_fetch sha256 url tMillis net m st).st = st ∧
        (respectful_fetch sha256 url tMillis net m st).manifest = m ∧
        ((respectful_fetch sha256 url tMillis net m st).outcome = .headSkipNotImage ∨
          ∃ n, (respectful_fetch sha256 url tMillis net m st).outcome =
            .headSkipTooLarge n)) ↔
        ("image/".data.isPrefixOf h.contentType.data = false ∨
          ∃ n, h.contentLength = some n ∧ n > MAX_BYTES))) := by
  constructor
  · intro hcase
    apply respectful_fetch_didGet_of_head_pass
    rcases hcase with hnone | ⟨h, hsome, hko⟩
    · rw [hnone]; rfl
    · rw [hsome]
      simp [head_check, hko]
  · intro h hsome hok
    by_cases himg : "image/".data.isPrefixOf h.contentType.data = true
    · cases hcl : h.contentLength with
      | none =>
        have hhc : head_check net.headResp = none := by
          rw [hsome]; simp [head_check, hok, himg, hcl]
        have hdg := respectful_fetch_didGet_of_head_pass sha256 url tMillis net m st hhc
        constructor
        · intro hlhs
          rw [hdg] at hlhs
          exact absurd hlhs.1 (by simp)
        · intro hrhs
          rcases hrhs with hni | ⟨n, hn, _⟩
          · rw [himg] at hni; exact absurd hni (by simp)
          · exact absurd hn (by simp)
      | some n =>
        by_cases hbig : n > MAX_BYTES
        · have hhc : head_check net.headResp = some (.headSkipTooLarge n) := by
            rw [hsome]; simp [head_check, hok, himg, hcl, hbig]
          rw [respectful_fetch_head_skip sha256 url tMillis net m st _ hhc]
          constructor
          · intro _
            exact Or.inr ⟨n, rfl, hbig⟩
          · intro _
            exact ⟨rfl, rfl, rfl, Or.inr ⟨n, rfl⟩⟩
        · have hhc : head_check net.headResp = none := by
            rw [hsome]; simp [head_check, hok, himg, hcl, hbig]
          have hdg := respectful_fetch_didGet_of_head_pass sha256 url tMillis net m st hhc
          constructor
          · intro hlhs
            rw [hdg] at hlhs
            exact absurd hlhs.1 (by simp)
          · intro hrhs
            rcases hrhs with hni | ⟨n', hn', hbig'⟩
            · rw [himg] at hni; exact absurd hni (by simp)
            · injection hn' with he
              omega
    · have himg' : "image/".data.isPrefixOf h.contentType.data = false := by
        cases hx : "image/".data.isPrefixOf h.contentType.data with
        | false => rfl
        | true => exact absurd hx himg
      have hhc : head_check net.headResp = some .headSkipNotImage := by
        rw [hsome]; simp [head_check, hok, himg']
      rw [respectful_fetch_head_skip sha256 url tMillis net m st _ hhc]
      constructor
      · intro _
        exact Or.inl himg'
      · intro _
        exact ⟨rfl, rfl, rfl, Or.inl rfl⟩

/-- Witness for C6 at concrete inputs: a raised HEAD still leads to the
GET, and an ok HEAD with a non-image content type is rejected with no
GET issued. -/
theorem head_probe_advisory_witness :
    (respectful_fetch (fun _ => "h") "u" 0 ⟨none, none⟩ emptyManifest
      ⟨[], none⟩).didGet = true ∧
    (respectful_fetch (fun _ => "h") "u" 0
      ⟨some ⟨true, "text/html", "", none, []⟩, none⟩ emptyManifest
      ⟨[], none⟩).didGet = false :=
  ⟨(head_probe_advisory (fun _ => "h") "u" 0 ⟨none, none⟩ emptyManifest
      ⟨[], none⟩).1 (Or.inl rfl),
   (((head_probe_advisory (fun _ => "h") "u" 0
        ⟨some ⟨true, "text/html", "", none, []⟩, none⟩ emptyManifest
        ⟨[], none⟩).2 ⟨true, "text/html", "", none, []⟩ rfl rfl).mpr
      (Or.inl (by decide))).1⟩

lemma fetchList_length (sha256 : Bytes → String) (netAt : Nat → Net) (tAt : Nat → Nat) :
    ∀ (urls : List String) (idx : Nat) (m : Manifest) (st : St),
      (fetchList sha256 netAt tAt urls idx m st).1.length = urls.length := by
  intro urls
  induction urls with
  | nil => intro idx m st; rfl
  | cons u rest ih =>
    intro idx m st
    simp only [fetchList, List.length_cons]
    rw [ih]

/-- C9: every per-URL outcome is local to that URL's attempt — the run is
a total function producing exactly one reported outcome line per parsed
URL, every remaining URL is still processed, and the process exit status
is 0 regardless of the individual outcomes (also on empty input). -/
theorem main_run_exits_zero_and_processes_every_url (sha256 : Bytes → String)
    (rawInput : String) (netAt : Nat → Net) (tAt : Nat → Nat)
    (stored : Option (Option JValue)) (st0 : St) :
    (main_run sha256 rawInput netAt tAt stored st0).exitCode = 0 ∧
    (main_run sha256 rawInput netAt tAt stored st0).outcomes.length =
      (parse_urls (pyStrip rawInput)).length := by
  rw [main_run]
  by_cases hraw : pyStrip rawInput = ""
  · simp only [hraw, if_true]
    exact ⟨trivial, by rfl⟩
  · simp only [hraw, if_false]
    exact ⟨trivial, fetchList_length sha256 netAt tAt _ 0 _ st0⟩

lemma lookup_append_of_none {β : Type} (l1 l2 : List (String × β)) (k : String)
    (h : l1.lookup k = none) : (l1 ++ l2).lookup k = l2.lookup k := by
  induction l1 with
  | nil => rfl
  | cons a t ih =>
    rw [List.cons_append]
    cases a with
    | mk a1 a2 =>
      simp only [List.lookup] at h ⊢
      cases hbeq : (k == a1) with
      | true => rw [hbeq] at h; simp at h
      | false =>
        rw [hbeq] at h
        exact ih h

lemma lookup_singleton_self {β : Type} (k : String) (v : β) :
    ([(k, v)] : List (String × β)).lookup k = some v := by
  simp [List.lookup]

lemma lookup_singleton_ne {β : Type} (k k' : String) (v : β) (h : k ≠ k') :
    ([(k', v)] : List (String × β)).lookup k = none := by
  have hbeq : (k == k') = false := beq_eq_false_iff_ne.mpr h
  simp [List.lookup, hbeq]

lemma lookup_eq_none_of_not_mem_keys {β : Type} (l : List (String × β)) (k : String)
    (h : k ∉ l.map Prod.fst) : l.lookup k = none := by
  induction l with
  | nil => rfl
  | cons a t ih =>
    simp only [List.map_cons, List.mem_cons, not_or] at h
    cases a with
    | mk a1 a2 =>
      simp only [List.lookup]
      cases hbeq : (k == a1) with
      | true =>
        exact absurd (eq_of_beq hbeq) h.1
      | false =>
        exact ih h.2

lemma totalLen_append (l1 l2 : List Bytes) :
    totalLen (l1 ++ l2) = totalLen l1 + totalLen l2 := by
  simp [totalLen]

/-- C1: two sequential fetch attempts whose responses carry byte-identical
image bodies (any URLs and filenames) leave exactly one file with that
content on disk after the second attempt, leave the manifest of the first
attempt unchanged (in particular the `hashes` map keeps its size), and the
second attempt reports a duplicate skip naming the filename the first
attempt stored. -/
theorem duplicate_content_fetched_once (sha256 : Bytes → String)
    (url1 url2 : String) (t1 t2 : Nat) (net1 net2 : Net) (m0 : Manifest) (st0 : St)
    (r1 r2 : HttpResponse)
    (hhead1 : head_check net1.headResp = none) (hget1 : net1.getResp = some r1)
    (hok1 : r1.ok = true) (himg1 : is_image_response r1 = true)
    (hhead2 : head_check net2.headResp = none) (hget2 : net2.getResp = some r2)
    (hok2 : r2.ok = true) (himg2 : is_image_response r2 = true)
    (hbody : r2.chunks.flatten = r1.chunks.flatten)
    (hsize : totalLen r1.chunks ≤ MAX_BYTES)
    (hnew : m0.hashes.lookup (sha256 r1.chunks.flatten) = none)
    (hfresh : st0.dirFiles.countP (fun e => e.2 == r1.chunks.flatten) = 0) :
    ((respectful_fetch sha256 url2 t2 net2
        (respectful_fetch sha256 url1 t1 net1 m0 st0).manifest
        (respectful_fetch sha256 url1 t1 net1 m0 st0).st).st.dirFiles.countP
      (fun e => e.2 == r1.chunks.flatten)) = 1 ∧
    (respectful_fetch sha256 url2 t2 net2
        (respectful_fetch sha256 url1 t1 net1 m0 st0).manifest
        (respectful_fetch sha256 url1 t1 net1 m0 st0).st).manifest =
      (respectful_fetch sha256 url1 t1 net1 m0 st0).manifest ∧
    (respectful_fetch sha256 url2 t2 net2
        (respectful_fetch sha256 url1 t1 net1 m0 st0).manifest
        (respectful_fetch sha256 url1 t1 net1 m0 st0).st).manifest.hashes.length =
      (respectful_fetch sha256 url1 t1 net1 m0 st0).manifest.hashes.length ∧
    (respectful_fetch sha256 url1 t1 net1 m0 st0).outcome =
      .fetched (resolvedPath url1 t1 r1 st0) ∧
    (respectful_fetch sha256 url1 t1 net1 m0 st0).manifest.hashes.lookup
      (sha256 r1.chunks.flatten) = some (basename (resolvedPath url1 t1 r1 st0)) ∧
    (respectful_fetch sha256 url2 t2 net2
        (respectful_fetch sha256 url1 t1 net1 m0 st0).manifest
        (respectful_fetch sha256 url1 t1 net1 m0 st0).st).outcome =
      .duplicateSkipped (basename (resolvedPath url1 t1 r1 st0)) := by
  have hsize2 : totalLen r2.chunks ≤ MAX_BYTES := by
    rw [totalLen_eq_flatten_length, hbody, ← totalLen_eq_flatten_length]
    exact hsize
  have h1 := respectful_fetch_stores sha256 url1 t1 net1 m0 st0 r1
    hhead1 hget1 hok1 himg1 hsize hnew
  have hlk : (recordedManifest m0 (sha256 r1.chunks.flatten)
      (basename (resolvedPath url1 t1 r1 st0))).hashes.lookup
      (sha256 r1.chunks.flatten) = some (basename (resolvedPath url1 t1 r1 st0)) := by
    show (m0.hashes ++ [(sha256 r1.chunks.flatten,
      basename (resolvedPath url1 t1 r1 st0))]).lookup (sha256 r1.chunks.flatten) = _
    rw [lookup_append_of_none m0.hashes _ _ hnew]
    exact lookup_singleton_self _ _
  have h2 := respectful_fetch_duplicate sha256 url2 t2 net2
    (recordedManifest m0 (sha256 r1.chunks.flatten)
      (basename (resolvedPath url1 t1 r1 st0)))
    ⟨st0.dirFiles ++ [(resolvedPath url1 t1 r1 st0, r1.chunks.flatten)],
      some (encodeManifest (recordedManifest m0 (sha256 r1.chunks.flatten)
        (basename (resolvedPath url1 t1 r1 st0))))⟩
    r2 (basename (resolvedPath url1 t1 r1 st0))
    hhead2 hget2 hok2 himg2 hsize2 (by rw [hbody]; exact hlk)
  rw [h1]
  simp only at h2 ⊢
  rw [h2]
  refine ⟨?_, ?_, ?_, ?_, ?_, ?_⟩
  · simp only [List.countP_append, hfresh]
    simp [List.countP_cons]
  · trivial
  · trivial
  · trivial
  · exact hlk
  · trivial

/-- Witness for C1: two attempts serving chunks `[[1],[2]]` leave one file
with content `[1, 2]` on disk and the second reports the duplicate skip. -/
theorem duplicate_content_fetched_once_witness :
    ((respectful_fetch (fun _ => "h") "u2" 0
        ⟨none, some ⟨true, "image/png", "", none, [[1], [2]]⟩⟩
        (respectful_fetch (fun _ => "h") "u1" 0
          ⟨none, some ⟨true, "image/png", "", none, [[1], [2]]⟩⟩ emptyManifest
          ⟨[], none⟩).manifest
        (respectful_fetch (fun _ => "h") "u1" 0
          ⟨none, some ⟨true, "image/png", "", none, [[1], [2]]⟩⟩ emptyManifest
          ⟨[], none⟩).st).st.dirFiles.countP
      (fun e => e.2 == ([[1], [2]] : List Bytes).flatten)) = 1 ∧
    (respectful_fetch (fun _ => "h") "u2" 0
        ⟨none, some ⟨true, "image/png", "", none, [[1], [2]]⟩⟩
        (respectful_fetch (fun _ => "h") "u1" 0
          ⟨none, some ⟨true, "image/png", "", none, [[1], [2]]⟩⟩ emptyManifest
          ⟨[], none⟩).manifest
        (respectful_fetch (fun _ => "h") "u1" 0
          ⟨none, some ⟨true, "image/png", "", none, [[1], [2]]⟩⟩ emptyManifest
          ⟨[], none⟩).st).outcome =
      .duplicateSkipped (basename (resolvedPath "u1" 0
        ⟨true, "image/png", "", none, [[1], [2]]⟩ ⟨[], none⟩)) := by
  have h := duplicate_content_fetched_once (fun _ => "h") "u1" "u2" 0 0
    ⟨none, some ⟨true, "image/png", "", none, [[1], [2]]⟩⟩
    ⟨none, some ⟨true, "image/png", "", none, [[1], [2]]⟩⟩ emptyManifest ⟨[], none⟩
    ⟨true, "image/png", "", none, [[1], [2]]⟩ ⟨true, "image/png", "", none, [[1], [2]]⟩
    rfl rfl rfl (by decide) rfl rfl rfl (by decide) rfl (by decide) rfl rfl
  exact ⟨h.1, h.2.2.2.2.2⟩

/-- C2: a streamed body totalling exactly the 15 MiB cap is accepted and
stored; a body one byte over is rejected with the partial file deleted
(disk unchanged) and no manifest mutation; and the cap check fires on the
first chunk that takes the cumulative count over the cap — the chunks
after it are never consulted. -/
theorem size_cap_boundary (sha256 : Bytes → String) (url : String) (tMillis : Nat)
    (netA netB : Net) (m : Manifest) (st : St) (rA rB : HttpResponse)
    (hheadA : head_check netA.headResp = none) (hgetA : netA.getResp = some rA)
    (hokA : rA.ok = true) (himgA : is_image_response rA = true)
    (hatcap : totalLen rA.chunks = MAX_BYTES)
    (hnew : m.hashes.lookup (sha256 rA.chunks.flatten) = none)
    (hheadB : head_check netB.headResp = none) (hgetB : netB.getResp = some rB)
    (hokB : rB.ok = true) (himgB : is_image_response rB = true)
    (hover : totalLen rB.chunks = MAX_BYTES + 1) :
    (respectful_fetch sha256 url tMillis netA m st).outcome =
      .fetched (resolvedPath url tMillis rA st) ∧
    (respectful_fetch sha256 url tMillis netA m st).st.dirFiles =
      st.dirFiles ++ [(resolvedPath url tMillis rA st, rA.chunks.flatten)] ∧
    respectful_fetch sha256 url tMillis netB m st =
      ⟨.abortedTooLarge, m, st, true⟩ ∧
    (∀ (pre : List Bytes) (c : Bytes) (post post' : List Bytes),
      totalLen pre ≤ MAX_BYTES → MAX_BYTES < totalLen pre + c.length →
      streamBody MAX_BYTES (pre ++ c :: post) 0 [] = none ∧
      streamBody MAX_BYTES (pre ++ c :: post) 0 [] =
        streamBody MAX_BYTES (pre ++ c :: post') 0 []) := by
  have hA := respectful_fetch_stores sha256 url tMillis netA m st rA
    hheadA hgetA hokA himgA (le_of_eq hatcap) hnew
  have hB := respectful_fetch_too_large sha256 url tMillis netB m st rB
    hheadB hgetB hokB himgB (by omega)
  refine ⟨by rw [hA], by rw [hA], hB, ?_⟩
  intro pre c post post' hpre hcross
  have habort : ∀ post0 : List Bytes,
      streamBody MAX_BYTES (pre ++ c :: post0) 0 [] = none := by
    intro post0
    apply streamBody_abort MAX_BYTES _ 0 [] (by omega)
    rw [Nat.zero_add, totalLen_append]
    simp only [totalLen, List.map_cons, List.sum_cons]
    simp only [totalLen] at hcross
    omega
  exact ⟨habort post, by rw [habort post, habort post']⟩

/-- Witness for C2: a single chunk of exactly `MAX_BYTES` zero bytes is
stored, and a single chunk of `MAX_BYTES + 1` zero bytes is aborted with
the state returned unchanged. -/
theorem size_cap_boundary_witness :
    (respectful_fetch (fun _ => "h") "u" 0
        ⟨none, some ⟨true, "image/png", "", none, [List.replicate MAX_BYTES 0]⟩⟩
        emptyManifest ⟨[], none⟩).outcome =
      .fetched (resolvedPath "u" 0
        ⟨true, "image/png", "", none, [List.replicate MAX_BYTES 0]⟩ ⟨[], none⟩) ∧
    respectful_fetch (fun _ => "h") "u" 0
        ⟨none, some ⟨true, "image/png", "", none, [List.replicate (MAX_BYTES + 1) 0]⟩⟩
        emptyManifest ⟨[], none⟩ =
      ⟨.abortedTooLarge, emptyManifest, ⟨[], none⟩, true⟩ := by
  have h := size_cap_boundary (fun _ => "h") "u" 0
    ⟨none, some ⟨true, "image/png", "", none, [List.replicate MAX_BYTES 0]⟩⟩
    ⟨none, some ⟨true, "image/png", "", none, [List.replicate (MAX_BYTES + 1) 0]⟩⟩
    emptyManifest ⟨[], none⟩
    ⟨true, "image/png", "", none, [List.replicate MAX_BYTES 0]⟩
    ⟨true, "image/png", "", none, [List.replicate (MAX_BYTES + 1) 0]⟩
    rfl rfl rfl (by decide) (by simp [totalLen]) rfl
    rfl rfl rfl (by decide) (by simp [totalLen])
  exact ⟨h.1, h.2.2.1⟩

/-- C5: `ensure_unique_path` always returns a path absent from the disk at
resolution time, and consequently two sequential fetches of distinct,
non-duplicate contents that resolve to the same base filename are stored
at two distinct paths, each retaining its own bytes (neither overwrites
the other). -/
theorem unique_paths_never_collide (sha256 : Bytes → String)
    (url1 url2 : String) (t1 t2 : Nat) (net1 net2 : Net) (m0 : Manifest) (st0 : St)
    (r1 r2 : HttpResponse)
    (hhead1 : head_check net1.headResp = none) (hget1 : net1.getResp = some r1)
    (hok1 : r1.ok = true) (himg1 : is_image_response r1 = true)
    (hsize1 : totalLen r1.chunks ≤ MAX_BYTES)
    (hnew1 : m0.hashes.lookup (sha256 r1.chunks.flatten) = none)
    (hhead2 : head_check net2.headResp = none) (hget2 : net2.getResp = some r2)
    (hok2 : r2.ok = true) (himg2 : is_image_response r2 = true)
    (hsize2 : totalLen r2.chunks ≤ MAX_BYTES)
    (hnew2 : m0.hashes.lookup (sha256 r2.chunks.flatten) = none)
    (_hsame : (filename_from_headers r1.contentDisposition).getD
        (safe_filename_from_url url1 t1) =
      (filename_from_headers r2.contentDisposition).getD
        (safe_filename_from_url url2 t2))
    (hdiff : sha256 r2.chunks.flatten ≠ sha256 r1.chunks.flatten) :
    (∀ (existing : List String) (path : String),
      ensure_unique_path existing path ∉ existing) ∧
    resolvedPath url1 t1 r1 st0 ≠
      resolvedPath url2 t2 r2 (respectful_fetch sha256 url1 t1 net1 m0 st0).st ∧
    (respectful_fetch sha256 url2 t2 net2
        (respectful_fetch sha256 url1 t1 net1 m0 st0).manifest
        (respectful_fetch sha256 url1 t1 net1 m0 st0).st).st.dirFiles.lookup
      (resolvedPath url1 t1 r1 st0) = some r1.chunks.flatten ∧
    (respectful_fetch sha256 url2 t2 net2
        (respectful_fetch sha256 url1 t1 net1 m0 st0).manifest
        (respectful_fetch sha256 url1 t1 net1 m0 st0).st).st.dirFiles.lookup
      (resolvedPath url2 t2 r2 (respectful_fetch sha256 url1 t1 net1 m0 st0).st) =
      some r2.chunks.flatten := by
  have h1 := respectful_fetch_stores sha256 url1 t1 net1 m0 st0 r1
    hhead1 hget1 hok1 himg1 hsize1 hnew1
  have hnew2' : (recordedManifest m0 (sha256 r1.chunks.flatten)
      (basename (resolvedPath url1 t1 r1 st0))).hashes.lookup
      (sha256 r2.chunks.flatten) = none := by
    show (m0.hashes ++ [(sha256 r1.chunks.flatten,
      basename (resolvedPath url1 t1 r1 st0))]).lookup (sha256 r2.chunks.flatten) = _
    rw [lookup_append_of_none m0.hashes _ _ hnew2]
    exact lookup_singleton_ne _ _ _ hdiff
  have h2 := respectful_fetch_stores sha256 url2 t2 net2
    (recordedManifest m0 (sha256 r1.chunks.flatten)
      (basename (resolvedPath url1 t1 r1 st0)))
    ⟨st0.dirFiles ++ [(resolvedPath url1 t1 r1 st0, r1.chunks.flatten)],
      some (encodeManifest (recordedManifest m0 (sha256 r1.chunks.flatten)
        (basename (resolvedPath url1 t1 r1 st0))))⟩
    r2 hhead2 hget2 hok2 himg2 hsize2 hnew2'
  rw [h1]
  simp only at h2 ⊢
  have hP1 : resolvedPath url1 t1 r1 st0 ∉ existingPaths st0 :=
    ensure_unique_path_not_mem _ _
  have hP1keys : resolvedPath url1 t1 r1 st0 ∉ st0.dirFiles.map Prod.fst := by
    intro hmem
    exact hP1 (List.mem_append.mpr (Or.inl hmem))
  set S1 : St := ⟨st0.dirFiles ++ [(resolvedPath url1 t1 r1 st0, r1.chunks.flatten)],
    some (encodeManifest (recordedManifest m0 (sha256 r1.chunks.flatten)
      (basename (resolvedPath url1 t1 r1 st0))))⟩ with hS1
  have hP2 : resolvedPath url2 t2 r2 S1 ∉ existingPaths S1 :=
    ensure_unique_path_not_mem _ _
  have hP1inS1 : resolvedPath url1 t1 r1 st0 ∈ existingPaths S1 := by
    apply List.mem_append.mpr
    refine Or.inl ?_
    rw [hS1]
    simp
  have hne : resolvedPath url1 t1 r1 st0 ≠ resolvedPath url2 t2 r2 S1 := by
    intro he
    rw [he] at hP1inS1
    exact hP2 hP1inS1
  have hP2keys : resolvedPath url2 t2 r2 S1 ∉
      (st0.dirFiles ++ [(resolvedPath url1 t1 r1 st0, r1.chunks.flatten)]).map
        Prod.fst := by
    intro hmem
    apply hP2
    apply List.mem_append.mpr
    exact Or.inl (by rw [hS1]; exact hmem)
  rw [h2]
  refine ⟨fun existing path => ensure_unique_path_not_mem existing path, hne, ?_, ?_⟩
  · rw [List.append_assoc]
    rw [lookup_append_of_none st0.dirFiles _ _
      (lookup_eq_none_of_not_mem_keys st0.dirFiles _ hP1keys)]
    simp [List.lookup]
  · rw [lookup_append_of_none _ _ _
      (lookup_eq_none_of_not_mem_keys _ _ hP2keys)]
    exact lookup_singleton_self _ _

/-- Witness for C5: two responses offering the same header filename
`pic.jpg` with distinct one-byte bodies end up at distinct paths, the
first retaining `[1]` and the second `[2]`. -/
theorem unique_paths_never_collide_witness :
    resolvedPath "u1" 0 ⟨true, "image/png", "filename=pic.jpg", none, [[1]]⟩
        ⟨[], none⟩ ≠
      resolvedPath "u2" 0 ⟨true, "image/png", "filename=pic.jpg", none, [[2]]⟩
        (respectful_fetch (fun b => if b = [1] then "h1" else "h2") "u1" 0
          ⟨none, some ⟨true, "image/png", "filename=pic.jpg", none, [[1]]⟩⟩
          emptyManifest ⟨[], none⟩).st ∧
    (respectful_fetch (fun b => if b = [1] then "h1" else "h2") "u2" 0
        ⟨none, some ⟨true, "image/png", "filename=pic.jpg", none, [[2]]⟩⟩
        (respectful_fetch (fun b => if b = [1] then "h1" else "h2") "u1" 0
          ⟨none, some ⟨true, "image/png", "filename=pic.jpg", none, [[1]]⟩⟩
          emptyManifest ⟨[], none⟩).manifest
        (respectful_fetch (fun b => if b = [1] then "h1" else "h2") "u1" 0
          ⟨none, some ⟨true, "image/png", "filename=pic.jpg", none, [[1]]⟩⟩
          emptyManifest ⟨[], none⟩).st).st.dirFiles.lookup
      (resolvedPath "u1" 0 ⟨true, "image/png", "filename=pic.jpg", none, [[1]]⟩
        ⟨[], none⟩) = some ([[1]] : List Bytes).flatten := by
  have h := unique_paths_never_collide (fun b => if b = [1] then "h1" else "h2")
    "u1" "u2" 0 0
    ⟨none, some ⟨true, "image/png", "filename=pic.jpg", none, [[1]]⟩⟩
    ⟨none, some ⟨true, "image/png", "filename=pic.jpg", none, [[2]]⟩⟩
    emptyManifest ⟨[], none⟩
    ⟨true, "image/png", "filename=pic.jpg", none, [[1]]⟩
    ⟨true, "image/png", "filename=pic.jpg", none, [[2]]⟩
    rfl rfl rfl (by decide) (by decide) rfl
    rfl rfl rfl (by decide) (by decide) rfl
    (by decide) (by decide)
  exact ⟨h.2.1, h.2.2.1⟩
